import Mathlib

/-!
Verification of the Toppreise price-dashboard core
(`src/toppreise_web_dashboard.py`).

The Python source is shallowly embedded below.  Strings are Lean `String`s
(operated on as `List Char`), Python floats are modelled as exact rationals
(every number reaching `float` here is a finite decimal literal), fallible
Python code (`try`/`except`) becomes `Option`, and the three module-level
regular expressions (`RE_AB_CHF`, `RE_GUENSTIGSTER`, `RE_CHF_ANY`) are
embedded as executable scanners that reproduce `re.search` / `re.finditer`
semantics for these particular patterns (leftmost match; greedy character
classes, which never need backtracking here because adjacent pieces of the
patterns have disjoint character sets; `finditer` consumes each match).
Case-insensitivity is modelled for ASCII letters plus `ü`/`Ü`, and `\s` /
`str.strip` whitespace as the usual Python whitespace set; the exotic
corners of Python's `float` grammar (`inf`, `nan`, underscore-grouped
literals) are not modelled — no string produced by this program contains
them.
-/

namespace Toppreise

/-- Whitespace as matched by Python's `\s` and stripped by `str.strip`. -/
def isPySpace (c : Char) : Bool :=
  c == ' ' || c == '\t' || c == '\n' || c == '\r' || c == '\x0b' || c == '\x0c' ||
  c == '\x1c' || c == '\x1d' || c == '\x1e' || c == '\x1f' || c == '\x85' || c == '\xa0' ||
  c == '\u1680' || (decide ('\u2000' ≤ c) && decide (c ≤ '\u200a')) || c == '\u2028' ||
  c == '\u2029' || c == '\u202f' || c == '\u205f' || c == '\u3000'

/-- The character class `[0-9]` used by all three price regexes. -/
def isDig (c : Char) : Bool := decide ('0' ≤ c) && decide (c ≤ '9')

/-- The thousands-separator characters removed by `chf_to_float`:
apostrophe, right single quote, underscore. -/
def sepChar (c : Char) : Bool := c == '\'' || c == '’' || c == '_'

/-- Numeric value of a decimal digit character. -/
def charVal (c : Char) : ℕ := c.toNat - 48

/-- Value of a big-endian list of decimal digit characters. -/
def digitsVal (l : List Char) : ℕ := l.foldl (fun a c => 10 * a + charVal c) 0

/-- Python `str.strip()` (both ends). -/
def pyStrip (l : List Char) : List Char :=
  ((l.dropWhile isPySpace).reverse.dropWhile isPySpace).reverse

/-- The combined effect of `val.replace("’", "'").replace("'", "").replace("_", "")`. -/
def removeSeps (l : List Char) : List Char := l.filter (fun c => !(sepChar c))

/-- Python `clean.replace(",", ".")`. -/
def commaToDot (l : List Char) : List Char := l.map (fun c => if c = ',' then '.' else c)

/-- Exponent part of a Python float literal: optional sign then digits,
which must consume the rest of the string. -/
def parseExpPart (l : List Char) : Option ℤ :=
  match l with
  | [] => none
  | c :: r =>
    if c = '+' then
      if r ≠ [] ∧ r.all isDig then some ((digitsVal r : ℕ) : ℤ) else none
    else if c = '-' then
      if r ≠ [] ∧ r.all isDig then some (-((digitsVal r : ℕ) : ℤ)) else none
    else if (c :: r).all isDig then some ((digitsVal (c :: r) : ℕ) : ℤ) else none

/-- Mantissa of a Python float literal: `digits`, `digits.digits?`, or
`.digits`; returns its value and the unconsumed remainder. -/
def parseMantissa (l : List Char) : Option (ℚ × List Char) :=
  let ip := l.takeWhile isDig
  let r1 := l.dropWhile isDig
  match r1 with
  | [] => if ip = [] then none else some ((digitsVal ip : ℚ), [])
  | c :: r2 =>
    if c = '.' then
      let fp := r2.takeWhile isDig
      let r3 := r2.dropWhile isDig
      if ip = [] ∧ fp = [] then none
      else some ((digitsVal ip : ℚ) + (digitsVal fp : ℚ) / 10 ^ fp.length, r3)
    else if ip = [] then none else some ((digitsVal ip : ℚ), c :: r2)

/-- Unsigned Python float literal: mantissa with optional `e`/`E` exponent. -/
def parseAfterSign (l : List Char) : Option ℚ :=
  match parseMantissa l with
  | none => none
  | some (m, r) =>
    match r with
    | [] => some m
    | c :: re =>
      if c = 'e' ∨ c = 'E' then (parseExpPart re).map (fun ex => m * (10 : ℚ) ^ ex)
      else none

/-- Python `float(s)` on an already-stripped string (decimal literals with
optional sign and exponent; `none` models a raised `ValueError`). -/
def parsePyFloat (l : List Char) : Option ℚ :=
  match l with
  | [] => none
  | c :: r =>
    if c = '+' then parseAfterSign r
    else if c = '-' then (parseAfterSign r).map Neg.neg
    else parseAfterSign (c :: r)

/-- `chf_to_float` (lines 103-109): strip the separators `'`, `’`, `_`,
strip whitespace, convert; on failure retry with `,` replaced by `.`.
`none` models the second `float` call raising (propagated to the caller). -/
def chf_to_float (val : String) : Option ℚ :=
  let clean := pyStrip (removeSeps val.data)
  match parsePyFloat clean with
  | some q => some q
  | none => parsePyFloat (commaToDot clean)

/-- Bare Python `float(s)` on a string, as used on `price_chf` in
`send_push_if_needed` (line 259). -/
def pyFloat (s : String) : Option ℚ := parsePyFloat (pyStrip s.data)

/-- Lower-casing used to model `re.IGNORECASE` (ASCII letters and `Ü`). -/
def lowerCH (c : Char) : Char :=
  if 'A' ≤ c ∧ c ≤ 'Z' then Char.ofNat (c.toNat + 32)
  else if c = 'Ü' then 'ü' else c

/-- Match a fixed (lower-case) pattern case-insensitively at the head of
the input, returning the remainder. -/
def matchCI : List Char → List Char → Option (List Char)
  | [], s => some s
  | _ :: _, [] => none
  | p :: ps, c :: cs => if lowerCH c = p then matchCI ps cs else none

/-- The characters of the amount class `[0-9'’_]`. -/
def isAmountChar (c : Char) : Bool := isDig c || sepChar c

/-- The capture group `([0-9'’_]+(?:\.[0-9]{2})?)` matched greedily at the
head of the input; returns the captured text and the remainder. -/
def matchAmount (s : List Char) : Option (List Char × List Char) :=
  let run := s.takeWhile isAmountChar
  let d := s.dropWhile isAmountChar
  if run = [] then none
  else
    match d with
    | x :: d1 :: d2 :: r2 =>
      if x = '.' ∧ isDig d1 = true ∧ isDig d2 = true then some (run ++ [x, d1, d2], r2)
      else some (run, x :: d1 :: d2 :: r2)
    | _ => some (run, d)

/-- Specification predicate: the possible shapes of a string captured by
the amount group `([0-9'’_]+(?:\.[0-9]{2})?)` — a non-empty run of digits
and separators, optionally followed by a dot and two digits. -/
def AmountShape (g : List Char) : Prop :=
  ∃ run, run ≠ [] ∧ (∀ c ∈ run, isAmountChar c = true) ∧
    (g = run ∨ ∃ d1 d2, isDig d1 = true ∧ isDig d2 = true ∧ g = run ++ ['.', d1, d2])

/-- `RE_AB_CHF` (`ab\s*CHF\s*(amount)`, line 71) matched at the head of the
input; returns the captured amount. -/
def matchAbChfAt (s : List Char) : Option (List Char) :=
  match matchCI ['a', 'b'] s with
  | none => none
  | some r1 =>
    match matchCI ['c', 'h', 'f'] (r1.dropWhile isPySpace) with
    | none => none
    | some r2 => (matchAmount (r2.dropWhile isPySpace)).map Prod.fst

/-- `RE_AB_CHF.search`: leftmost match of the `ab CHF` pattern; returns the
captured amount. -/
def searchAbChf : List Char → Option (List Char)
  | [] => none
  | c :: rest =>
    match matchAbChfAt (c :: rest) with
    | some g => some g
    | none => searchAbChf rest

/-- `CHF\s*(amount)` matched at the head of the input (the shared suffix of
`RE_CHF_ANY` and `RE_GUENSTIGSTER`); returns the capture and the remainder
after the whole match. -/
def matchChfAmountAt (s : List Char) : Option (List Char × List Char) :=
  match s with
  | c1 :: c2 :: c3 :: rest =>
    if lowerCH c1 = 'c' ∧ lowerCH c2 = 'h' ∧ lowerCH c3 = 'f' then
      matchAmount (rest.dropWhile isPySpace)
    else none
  | _ => none

/-- Leftmost `CHF\s*(amount)` match, capture only.  This is the lazy
`.*?CHF\s*(amount)` tail of `RE_GUENSTIGSTER` (`re.DOTALL`). -/
def searchChfGroup : List Char → Option (List Char)
  | [] => none
  | c :: rest =>
    match matchChfAmountAt (c :: rest) with
    | some gr => some gr.1
    | none => searchChfGroup rest

/-- `RE_GUENSTIGSTER` (`günstigster\s+Produktpreis.*?CHF\s*(amount)`,
lines 72-75) matched starting at the head of the input. -/
def matchGuenstAt (s : List Char) : Option (List Char) :=
  match matchCI "günstigster".data s with
  | none => none
  | some r1 =>
    match r1 with
    | [] => none
    | c :: _ =>
      if isPySpace c then
        match matchCI "produktpreis".data (r1.dropWhile isPySpace) with
        | none => none
        | some r2 => searchChfGroup r2
      else none

/-- `RE_GUENSTIGSTER.search`: leftmost match, capture only. -/
def searchGuenst : List Char → Option (List Char)
  | [] => none
  | c :: rest =>
    match matchGuenstAt (c :: rest) with
    | some g => some g
    | none => searchGuenst rest

/-- `RE_CHF_ANY.finditer` worker.  The fuel argument only serves to make
the recursion structural: every step either consumes the whole match (at
least four characters) or advances one position, so `fuel = s.length`
never runs out (`finditerChf_cons` below proves the natural recurrence). -/
def finditerChfAux : ℕ → List Char → List (List Char)
  | 0, _ => []
  | _ + 1, [] => []
  | fuel + 1, c :: rest =>
    match matchChfAmountAt (c :: rest) with
    | some gr => gr.1 :: finditerChfAux fuel gr.2
    | none => finditerChfAux fuel rest

/-- `RE_CHF_ANY.finditer`: all non-overlapping `CHF\s*(amount)` matches,
scanning left to right; returns the list of captures. -/
def finditerChf (s : List Char) : List (List Char) := finditerChfAux s.length s

/-- The tier-3 candidate list of `extract_min_price_from_text`
(lines 128-135): every `CHF` amount that parses and lies in `[100, 3000]`. -/
def chfCandidates (s : List Char) : List ℚ :=
  (finditerChf s).filterMap (fun g =>
    match chf_to_float ⟨g⟩ with
    | some p => if 100 ≤ p ∧ p ≤ 3000 then some p else none
    | none => none)

/-- `extract_min_price_from_text` (lines 112-136): tier 1 `RE_AB_CHF`,
tier 2 `RE_GUENSTIGSTER`, tier 3 minimum of the plausible `RE_CHF_ANY`
amounts; a tier whose amount fails to parse falls through to the next. -/
def extract_min_price_from_text (text : String) : Option ℚ :=
  let s := text.data
  let tier3 : Option ℚ :=
    match chfCandidates s with
    | [] => none
    | c :: cs => some (cs.foldl min c)
  let tier2 : Option ℚ :=
    match searchGuenst s with
    | some g =>
      match chf_to_float ⟨g⟩ with
      | some p => some p
      | none => tier3
    | none => tier3
  match searchAbChf s with
  | some g =>
    match chf_to_float ⟨g⟩ with
    | some p => some p
    | none => tier2
  | none => tier2

/-- The decimal digit character for `m < 10` (an arbitrary character
otherwise; never reached). -/
def digitChar (m : ℕ) : Char :=
  if m = 0 then '0' else if m = 1 then '1' else if m = 2 then '2'
  else if m = 3 then '3' else if m = 4 then '4' else if m = 5 then '5'
  else if m = 6 then '6' else if m = 7 then '7' else if m = 8 then '8'
  else if m = 9 then '9' else '*'

/-- Decimal digits of a natural number (little helper for `f"{x:.2f}"`).
The first argument is fuel making the recursion structural; `n` itself is
always enough fuel since `n / 10 < n` for `n ≠ 0`. -/
def natDecimalAux : ℕ → ℕ → List Char → List Char
  | 0, _, acc => acc
  | fuel + 1, n, acc =>
    if n = 0 then acc else natDecimalAux fuel (n / 10) (digitChar (n % 10) :: acc)

/-- Decimal representation of a natural number. -/
def natDecimal (n : ℕ) : List Char := if n = 0 then ['0'] else natDecimalAux n n []

/-- Two-digit zero-padded decimal representation (for `m < 100`). -/
def pad2 (m : ℕ) : List Char := if m < 10 then '0' :: natDecimal m else natDecimal m

/-- Round to the nearest integer, ties to even — the rounding used by
Python's fixed-point formatting. -/
def roundHalfEven (q : ℚ) : ℤ :=
  let f := ⌊q⌋
  let r := q - (f : ℚ)
  if r < 1 / 2 then f
  else if 1 / 2 < r then f + 1
  else if 2 ∣ f then f else f + 1

/-- Digits of `f"{x:.2f}"` for a non-negative hundredth count. -/
def format2core (n : ℕ) : List Char := natDecimal (n / 100) ++ '.' :: pad2 (n % 100)

/-- Python `f"{x:.2f}"` (line 190), on the exact-rational model. -/
def format2 (q : ℚ) : String :=
  let n := roundHalfEven (q * 100)
  if n < 0 then ⟨'-' :: format2core n.natAbs⟩ else ⟨format2core n.natAbs⟩

/-- One per-product snapshot entry of `poll_all_products`:
`{"price_chf": ..., "url": ...}`. -/
structure Snapshot where
  price_chf : String
  url : String
deriving DecidableEq, Repr

/-- One step of the running-minimum accumulator of `poll_all_products`
(lines 184-186): update only on strict improvement. -/
def minStep (acc : Option (ℚ × String)) (x : ℚ × String) : Option (ℚ × String) :=
  match acc with
  | none => some x
  | some m => if x.1 < m.1 then some x else some m

/-- The same running-minimum step on an always-present accumulator. -/
def minStep2 (m x : ℚ × String) : ℚ × String := if x.1 < m.1 then x else m

/-- The observations a fetch oracle yields over a URL list: price paired
with the URL that produced it, in URL order.  (`fetch u = none` models both
a fetch exception and "no plausible price found".) -/
def observations (fetch : String → Option ℚ) (urls : List String) : List (ℚ × String) :=
  urls.filterMap (fun u => (fetch u).map (fun p => (p, u)))

/-- The per-product body of `poll_all_products` (lines 177-192): running
strict minimum over the URLs, then
`{"price_chf": f"{min:.2f}" or "", "url": min_url or urls[0] or ""}`. -/
def aggregate (fetch : String → Option ℚ) (urls : List String) : Snapshot :=
  match urls.foldl (fun acc u =>
      match fetch u with
      | some p => minStep acc (p, u)
      | none => acc) none with
  | some m =>
    { price_chf := format2 m.1
      url := if m.2 = "" then urls.headD "" else m.2 }
  | none => { price_chf := "", url := urls.headD "" }

/-- `poll_all_products` (lines 173-193) over a configured product table
(a Python dict in insertion order, keys unique). -/
def poll_all_products (fetch : String → Option ℚ)
    (products : List (String × List String)) : List (String × Snapshot) :=
  products.map (fun p => (p.1, aggregate fetch p.2))

/-- `PRODUCTS` (lines 45-60). -/
def PRODUCTS : List (String × List String) :=
  [("Sage Barista Touch Impress",
    ["https://www.toppreise.ch/preisvergleich/Siebtraegermaschinen/SAGE-The-Barista-Touch-Impress-Cold-Brushed-Edelstahl-p816790",
     "https://www.toppreise.ch/preisvergleich/Siebtraegermaschinen/SAGE-The-Barista-Touch-Impress-Trueffelschwarz-p743055"]),
   ("Sage Barista Pro",
    ["https://www.toppreise.ch/produktserie/The_Barista_Pro-pc-s43919",
     "https://www.toppreise.ch/preisvergleich/Siebtraegermaschinen/SAGE-The-Barista-Pro-Gebuerstetes-Edelstahlgrau-p565803"]),
   ("Sage Barista Touch",
    ["https://www.toppreise.ch/produktserie/The_Barista_Touch-pc-s43924",
     "https://www.toppreise.ch/preisvergleich/Siebtraegermaschinen/SAGE-The-Barista-Touch-Trueffelschwarz-p565822"])]

/-- `DEFAULT_THRESHOLDS` (lines 63-67). -/
def DEFAULT_THRESHOLDS : List (String × ℚ) :=
  [("Sage Barista Touch Impress", 960),
   ("Sage Barista Pro", 580),
   ("Sage Barista Touch", 900)]

/-- An emitted ntfy alert (`requests.post` call, lines 266-278). -/
structure AlertEvent where
  model : String
  price : ℚ
  threshold : ℚ
  url : String
deriving DecidableEq, Repr

/-- Python `dict.get` on an association list with unique keys. -/
def lookupThr (tbl : List (String × ℚ)) (k : String) : Option ℚ :=
  (tbl.find? (fun e => e.1 == k)).map (fun e => e.2)

/-- The loop body of `send_push_if_needed` (lines 254-278) for one snapshot
entry: skip empty or unparseable prices, skip models without a threshold,
alert iff `price <= thr`. -/
def alertFor (tbl : List (String × ℚ)) (e : String × Snapshot) : Option AlertEvent :=
  if e.2.price_chf = "" then none
  else
    match pyFloat e.2.price_chf with
    | none => none
    | some price =>
      match lookupThr tbl e.1 with
      | none => none
      | some thr => if price ≤ thr then some ⟨e.1, price, thr, e.2.url⟩ else none

/-- `send_push_if_needed` (lines 243-281): no topic (absent or empty) means
no alerts; `thresholds = cfg.get("thresholds", {}) or DEFAULT_THRESHOLDS`
(the built-in table is used only when the override table is empty); the
returned list holds the alert events emitted, in snapshot order. -/
def send_push_if_needed (topic : Option String) (overrides : List (String × ℚ))
    (data : List (String × Snapshot)) : List AlertEvent :=
  match topic with
  | none => []
  | some tp =>
    if tp = "" then []
    else data.filterMap (alertFor (if overrides = [] then DEFAULT_THRESHOLDS else overrides))

/-- Substring test (used to state claim C2 about texts containing
`"ab CHF 1'099.00"`). -/
def startsWithChars : List Char → List Char → Bool
  | [], _ => true
  | _ :: _, [] => false
  | p :: ps, c :: cs => p == c && startsWithChars ps cs

/-- Whether `pat` occurs as a contiguous substring of `s`. -/
def hasSubstring (pat : List Char) : List Char → Bool
  | [] => startsWithChars pat []
  | c :: rest => startsWithChars pat (c :: rest) || hasSubstring pat rest

/-! ### Generic list and character lemmas -/

theorem takeWhile_append_of {p : Char → Bool} :
    ∀ (xs : List Char) (y : Char) (ys : List Char), (∀ c ∈ xs, p c = true) → p y = false →
      (xs ++ y :: ys).takeWhile p = xs ∧ (xs ++ y :: ys).dropWhile p = y :: ys := by
  intro xs
  induction xs with
  | nil => intro y ys _ hy; simp [List.takeWhile, List.dropWhile, hy]
  | cons x t ih =>
    intro y ys hall hy
    have hx : p x = true := hall x (by simp)
    have ht := ih y ys (fun c hc => hall c (by simp [hc])) hy
    simp [List.takeWhile, List.dropWhile, hx, ht.1, ht.2]

theorem takeWhile_all {p : Char → Bool} :
    ∀ {l : List Char}, (∀ c ∈ l, p c = true) →
      l.takeWhile p = l ∧ l.dropWhile p = [] := by
  intro l
  induction l with
  | nil => intro _; simp
  | cons x t ih =>
    intro hall
    have hx : p x = true := hall x (by simp)
    have ht := ih (fun c hc => hall c (by simp [hc]))
    simp [List.takeWhile, List.dropWhile, hx, ht.1, ht.2]

theorem dropWhile_all_false {p : Char → Bool} {l : List Char}
    (h : ∀ c ∈ l, p c = false) : l.dropWhile p = l := by
  cases l with
  | nil => rfl
  | cons x t => simp [List.dropWhile, h x (by simp)]

theorem pyStrip_id {l : List Char} (h : ∀ c ∈ l, isPySpace c = false) : pyStrip l = l := by
  unfold pyStrip
  rw [dropWhile_all_false h, dropWhile_all_false (by intro c hc; exact h c (by simpa using hc)),
    List.reverse_reverse]

theorem map_id_of {f : Char → Char} :
    ∀ {l : List Char}, (∀ c ∈ l, f c = c) → l.map f = l := by
  intro l
  induction l with
  | nil => intro _; rfl
  | cons x t ih =>
    intro hall
    simp only [List.map_cons, hall x (by simp), ih (fun c hc => hall c (by simp [hc]))]

theorem filter_all {p : Char → Bool} {l : List Char}
    (h : ∀ c ∈ l, p c = true) : l.filter p = l :=
  List.filter_eq_self.mpr h

theorem foldlMin_le : ∀ (l : List ℚ) (a : ℚ),
    l.foldl min a ≤ a ∧ ∀ x ∈ l, l.foldl min a ≤ x := by
  intro l
  induction l with
  | nil => intro a; exact ⟨le_refl a, by simp⟩
  | cons b t ih =>
    intro a
    have h := ih (min a b)
    simp only [List.foldl_cons]
    refine ⟨le_trans h.1 (min_le_left a b), ?_⟩
    intro x hx
    rcases List.mem_cons.mp hx with rfl | ht
    · exact le_trans h.1 (min_le_right a x)
    · exact h.2 x ht

theorem foldlMin_mem : ∀ (l : List ℚ) (a : ℚ),
    l.foldl min a = a ∨ l.foldl min a ∈ l := by
  intro l
  induction l with
  | nil => intro a; exact Or.inl rfl
  | cons b t ih =>
    intro a
    simp only [List.foldl_cons]
    rcases ih (min a b) with h | h
    · rcases min_choice a b with hab | hab
      · exact Or.inl (by rw [h, hab])
      · rw [h, hab]; simp
    · exact Or.inr (List.mem_cons_of_mem b h)

theorem digitsVal_append_single (l : List Char) (c : Char) :
    digitsVal (l ++ [c]) = 10 * digitsVal l + charVal c := by
  simp [digitsVal, List.foldl_append]

theorem digitsVal_cons_zero (l : List Char) : digitsVal ('0' :: l) = digitsVal l := by
  have h0 : charVal '0' = 0 := by decide
  simp [digitsVal, List.foldl_cons, h0]

theorem data_mk (l : List Char) : (⟨l⟩ : String).data = l := rfl

/-! ### Character class facts -/

theorem isDig_facts {c : Char} (h : isDig c = true) :
    sepChar c = false ∧ isPySpace c = false ∧ c ≠ '+' ∧ c ≠ '-' ∧ c ≠ '.' ∧
      c ≠ ',' ∧ c ≠ 'e' ∧ c ≠ 'E' := by
  have hb : '0' ≤ c ∧ c ≤ '9' := by
    unfold isDig at h
    exact ⟨of_decide_eq_true (Bool.and_elim_left h), of_decide_eq_true (Bool.and_elim_right h)⟩
  constructor
  · by_contra hs
    have hs' : sepChar c = true := eq_true_of_ne_false hs
    unfold sepChar at hs'
    simp only [Bool.or_eq_true, beq_iff_eq] at hs'
    casesm* _ ∨ _ <;> (subst c; revert hb; decide)
  refine ⟨?_, ?_, ?_, ?_, ?_, ?_, ?_⟩
  · by_contra hs
    have hs' : isPySpace c = true := eq_true_of_ne_false hs
    unfold isPySpace at hs'
    simp only [Bool.or_eq_true, beq_iff_eq, Bool.and_eq_true, decide_eq_true_eq] at hs'
    casesm* _ ∨ _
    all_goals
      first
      | (subst c; revert hb; decide)
      | (rename_i hrange; exact absurd (le_trans hrange.1 hb.2) (by decide))
  all_goals (rintro rfl; revert hb; decide)

theorem digitChar_facts {m : ℕ} (h : m < 10) :
    isDig (digitChar m) = true ∧ charVal (digitChar m) = m := by
  interval_cases m <;> exact ⟨by decide, by decide⟩

theorem amount_not_sep_isDig {c : Char} (h1 : isAmountChar c = true)
    (h2 : sepChar c = false) : isDig c = true := by
  unfold isAmountChar at h1
  rcases Bool.or_eq_true_iff.mp h1 with h | h
  · exact h
  · rw [h2] at h; exact absurd h (by decide)

/-! ### Decimal formatting: `natDecimal` and `pad2` -/

theorem natDecimalAux_zero (fuel : ℕ) (acc : List Char) : natDecimalAux fuel 0 acc = acc := by
  cases fuel with
  | zero => rfl
  | succ f => simp [natDecimalAux]

theorem natDecimalAux_congr : ∀ (f1 n : ℕ) (acc : List Char) (f2 : ℕ), n ≤ f1 → n ≤ f2 →
    natDecimalAux f1 n acc = natDecimalAux f2 n acc := by
  intro f1
  induction f1 with
  | zero =>
    intro n acc f2 h1 _
    have hn : n = 0 := Nat.le_zero.mp h1
    subst hn
    rw [natDecimalAux_zero, natDecimalAux_zero]
  | succ f ih =>
    intro n acc f2 h1 h2
    by_cases hn : n = 0
    · subst hn; rw [natDecimalAux_zero, natDecimalAux_zero]
    · rcases f2 with _ | f2
      · exact absurd (Nat.le_zero.mp h2) hn
      · simp only [natDecimalAux, hn, if_false]
        exact ih (n / 10) _ f2 (by omega) (by omega)

theorem natDecimalStep {n : ℕ} (h : n ≠ 0) (acc : List Char) :
    natDecimalAux n n acc = natDecimalAux (n / 10) (n / 10) (digitChar (n % 10) :: acc) := by
  rcases n with _ | m
  · exact absurd rfl h
  · rw [show natDecimalAux (m + 1) (m + 1) acc
        = natDecimalAux m ((m + 1) / 10) (digitChar ((m + 1) % 10) :: acc) from by
      simp [natDecimalAux]]
    exact natDecimalAux_congr m ((m + 1) / 10) _ ((m + 1) / 10) (by omega) (le_refl _)

theorem natDecimalAux_append (n : ℕ) : ∀ acc : List Char,
    natDecimalAux n n acc = natDecimalAux n n [] ++ acc := by
  induction n using Nat.strong_induction_on with
  | _ n ih =>
    intro acc
    by_cases h : n = 0
    · subst h; rw [natDecimalAux_zero, natDecimalAux_zero]; rfl
    · have hlt : n / 10 < n := Nat.div_lt_self (Nat.pos_of_ne_zero h) (by omega)
      rw [natDecimalStep h acc, natDecimalStep h [],
        ih _ hlt (digitChar (n % 10) :: acc), ih _ hlt (digitChar (n % 10) :: [])]
      simp

theorem natDecimalAux_val (n : ℕ) (h : n ≠ 0) : digitsVal (natDecimalAux n n []) = n := by
  induction n using Nat.strong_induction_on with
  | _ n ih =>
    rw [natDecimalStep h, natDecimalAux_append]
    by_cases h10 : n / 10 = 0
    · have hn10 : n < 10 := by omega
      have hm : n % 10 = n := Nat.mod_eq_of_lt hn10
      rw [h10, natDecimalAux_zero, List.nil_append, hm]
      simp [digitsVal, List.foldl_cons, (digitChar_facts hn10).2]
    · have hlt : n / 10 < n := Nat.div_lt_self (Nat.pos_of_ne_zero h) (by omega)
      rw [digitsVal_append_single, ih _ hlt h10,
        (digitChar_facts (Nat.mod_lt _ (by omega))).2]
      omega

theorem natDecimalAux_all_dig (n : ℕ) : ∀ c ∈ natDecimalAux n n [], isDig c = true := by
  induction n using Nat.strong_induction_on with
  | _ n ih =>
    intro c hc
    by_cases h : n = 0
    · subst h; rw [natDecimalAux_zero] at hc; simp at hc
    · have hlt : n / 10 < n := Nat.div_lt_self (Nat.pos_of_ne_zero h) (by omega)
      rw [natDecimalStep h, natDecimalAux_append] at hc
      rcases List.mem_append.mp hc with h1 | h1
      · exact ih _ hlt c h1
      · have hcd : c = digitChar (n % 10) := by simpa using h1
        exact hcd ▸ (digitChar_facts (Nat.mod_lt _ (by omega))).1

theorem natDecimal_val (n : ℕ) : digitsVal (natDecimal n) = n := by
  unfold natDecimal
  by_cases h : n = 0
  · subst h; simp; decide
  · simp only [h, if_false]; exact natDecimalAux_val n h

theorem natDecimal_all_dig (n : ℕ) : ∀ c ∈ natDecimal n, isDig c = true := by
  unfold natDecimal
  by_cases h : n = 0
  · subst h; intro c hc; simp at hc; subst hc; decide
  · simp only [h, if_false]; exact natDecimalAux_all_dig n

theorem natDecimal_ne_nil (n : ℕ) : natDecimal n ≠ [] := by
  unfold natDecimal
  by_cases h : n = 0
  · simp [h]
  · simp only [h, if_false]
    rw [natDecimalStep h, natDecimalAux_append]
    simp

theorem natDecimal_lt_ten {n : ℕ} (h : n < 10) : natDecimal n = [digitChar n] := by
  unfold natDecimal
  by_cases h0 : n = 0
  · subst h0; decide
  · simp only [h0, if_false]
    rw [natDecimalStep h0, Nat.div_eq_of_lt h, Nat.mod_eq_of_lt h, natDecimalAux_zero]

theorem natDecimal_two {m : ℕ} (h1 : 10 ≤ m) (h2 : m < 100) :
    natDecimal m = [digitChar (m / 10), digitChar (m % 10)] := by
  have hm0 : m ≠ 0 := by omega
  have hq0 : m / 10 ≠ 0 := by omega
  have hqlt : m / 10 < 10 := by omega
  unfold natDecimal
  simp only [hm0, if_false]
  rw [natDecimalStep hm0, natDecimalStep hq0, Nat.div_eq_of_lt hqlt,
    Nat.mod_eq_of_lt hqlt, natDecimalAux_zero]

theorem pad2_val {m : ℕ} (_h : m < 100) : digitsVal (pad2 m) = m := by
  unfold pad2
  by_cases h10 : m < 10
  · simp only [h10, if_true]
    rw [digitsVal_cons_zero, natDecimal_val]
  · simp only [h10, if_false]
    exact natDecimal_val m

theorem pad2_len {m : ℕ} (h : m < 100) : (pad2 m).length = 2 := by
  unfold pad2
  by_cases h10 : m < 10
  · simp only [h10, if_true]
    rw [natDecimal_lt_ten h10]
    rfl
  · simp only [h10, if_false]
    rw [natDecimal_two (by omega) h]
    rfl

theorem pad2_all_dig (m : ℕ) : ∀ c ∈ pad2 m, isDig c = true := by
  unfold pad2
  intro c hc
  by_cases h10 : m < 10
  · simp only [h10, if_true] at hc
    rcases List.mem_cons.mp hc with rfl | h1
    · decide
    · exact natDecimal_all_dig m c h1
  · simp only [h10, if_false] at hc
    exact natDecimal_all_dig m c hc

/-! ### Parsing a fixed two-decimal rendering -/

theorem parse_int_frac {A B : List Char} (hA : ∀ c ∈ A, isDig c = true)
    (hB : ∀ c ∈ B, isDig c = true) (hne : A ≠ [] ∨ B ≠ []) :
    parsePyFloat (A ++ '.' :: B) =
      some ((digitsVal A : ℚ) + (digitsVal B : ℚ) / 10 ^ B.length) := by
  have hdot : isDig '.' = false := by decide
  have htd := takeWhile_append_of A '.' B hA hdot
  have htb := takeWhile_all hB
  have hne' : ¬(A = [] ∧ B = []) := by rcases hne with h | h <;> simp [h]
  have hmant : parseMantissa (A ++ '.' :: B) =
      some ((digitsVal A : ℚ) + (digitsVal B : ℚ) / 10 ^ B.length, []) := by
    simp only [parseMantissa, htd.1, htd.2, htb.1, htb.2]
    simp [hne']
  cases A with
  | nil =>
    simp only [List.nil_append] at hmant ⊢
    simp [parsePyFloat, parseAfterSign, hmant]
  | cons a A' =>
    have ha := hA a (by simp)
    have hfacts := isDig_facts ha
    simp only [List.cons_append] at hmant ⊢
    simp [parsePyFloat, parseAfterSign, hfacts.2.2.1, hfacts.2.2.2.1, hmant]

theorem roundHalfEven_natCast (k : ℕ) : roundHalfEven ((k : ℕ) : ℚ) = (k : ℤ) := by
  simp only [roundHalfEven, Int.floor_natCast]
  norm_num

theorem format2_natDiv (k : ℕ) : format2 ((k : ℚ) / 100) = ⟨format2core k⟩ := by
  have h1 : (k : ℚ) / 100 * 100 = ((k : ℕ) : ℚ) := by
    rw [div_mul_cancel₀]
    norm_num
  simp only [format2, h1, roundHalfEven_natCast]
  rw [if_neg (by omega), Int.natAbs_ofNat]

theorem parse_format2core (k : ℕ) :
    parsePyFloat (format2core k) = some ((k : ℚ) / 100) := by
  have hlt : k % 100 < 100 := Nat.mod_lt _ (by omega)
  unfold format2core
  rw [parse_int_frac (natDecimal_all_dig (k / 100)) (pad2_all_dig (k % 100))
    (Or.inl (natDecimal_ne_nil _))]
  rw [natDecimal_val, pad2_val hlt, pad2_len hlt]
  have hk : (100 : ℚ) * ((k / 100 : ℕ) : ℚ) + ((k % 100 : ℕ) : ℚ) = (k : ℚ) := by
    exact_mod_cast Nat.div_add_mod k 100
  congr 1
  rw [show ((10 : ℚ) ^ 2 = 100) from by norm_num,
    eq_div_iff (show (100 : ℚ) ≠ 0 from by norm_num)]
  linarith [hk]

theorem format2core_noSeps (k : ℕ) : removeSeps (format2core k) = format2core k := by
  apply filter_all
  intro c hc
  unfold format2core at hc
  rcases List.mem_append.mp hc with h | h
  · simp [(isDig_facts (natDecimal_all_dig _ c h)).1]
  · rcases List.mem_cons.mp h with rfl | h2
    · decide
    · simp [(isDig_facts (pad2_all_dig _ c h2)).1]

theorem format2core_strip (k : ℕ) : pyStrip (format2core k) = format2core k := by
  apply pyStrip_id
  intro c hc
  unfold format2core at hc
  rcases List.mem_append.mp hc with h | h
  · exact (isDig_facts (natDecimal_all_dig _ c h)).2.1
  · rcases List.mem_cons.mp h with rfl | h2
    · decide
    · exact (isDig_facts (pad2_all_dig _ c h2)).2.1

theorem chf_roundtrip (k : ℕ) :
    chf_to_float (format2 ((k : ℚ) / 100)) = some ((k : ℚ) / 100) := by
  rw [format2_natDiv]
  simp only [chf_to_float]
  rw [format2core_noSeps, format2core_strip, parse_format2core]

theorem pyFloat_roundtrip (k : ℕ) :
    pyFloat (format2 ((k : ℚ) / 100)) = some ((k : ℚ) / 100) := by
  rw [format2_natDiv]
  simp only [pyFloat]
  rw [format2core_strip, parse_format2core]

/-! ### Every captured amount parses to a two-decimal rational -/

theorem parse_all_dig {A : List Char} (hA : ∀ c ∈ A, isDig c = true) (hne : A ≠ []) :
    parsePyFloat A = some ((digitsVal A : ℚ)) := by
  have hta := takeWhile_all hA
  have hmant : parseMantissa A = some ((digitsVal A : ℚ), []) := by
    simp only [parseMantissa, hta.1, hta.2]
    simp [hne]
  cases A with
  | nil => exact absurd rfl hne
  | cons a A' =>
    have hfacts := isDig_facts (hA a (by simp))
    simp [parsePyFloat, parseAfterSign, hfacts.2.2.1, hfacts.2.2.2.1, hmant]

theorem matchAmount_shape {s : List Char} {gr : List Char × List Char}
    (h : matchAmount s = some gr) : AmountShape gr.1 := by
  have hall : ∀ c ∈ s.takeWhile isAmountChar, isAmountChar c = true :=
    fun c hc => List.mem_takeWhile_imp hc
  by_cases hrun : s.takeWhile isAmountChar = []
  · unfold matchAmount at h
    simp [hrun] at h
  · unfold matchAmount at h
    simp only [hrun, if_false] at h
    rcases hd : s.dropWhile isAmountChar with _ | ⟨x, _ | ⟨y, _ | ⟨z, r⟩⟩⟩ <;>
        simp only [hd] at h
    · rw [Option.some.injEq] at h
      exact ⟨_, hrun, hall, Or.inl (by rw [← h])⟩
    · rw [Option.some.injEq] at h
      exact ⟨_, hrun, hall, Or.inl (by rw [← h])⟩
    · rw [Option.some.injEq] at h
      exact ⟨_, hrun, hall, Or.inl (by rw [← h])⟩
    · by_cases hx : x = '.' ∧ isDig y = true ∧ isDig z = true
      · rw [if_pos hx, Option.some.injEq] at h
        refine ⟨_, hrun, hall, Or.inr ⟨y, z, hx.2.1, hx.2.2, ?_⟩⟩
        rw [← h, hx.1]
      · rw [if_neg hx, Option.some.injEq] at h
        exact ⟨_, hrun, hall, Or.inl (by rw [← h])⟩

theorem chf_kform {g : List Char} {q : ℚ} (hs : AmountShape g)
    (h : chf_to_float ⟨g⟩ = some q) : ∃ k : ℕ, q = (k : ℚ) / 100 := by
  obtain ⟨run, hne, hall, hg⟩ := hs
  have hrun'dig : ∀ c ∈ run.filter (fun c => !(sepChar c)), isDig c = true := by
    intro c hc
    have hm := List.mem_filter.mp hc
    exact amount_not_sep_isDig (hall c hm.1) (by simpa using hm.2)
  rcases hg with hgr | ⟨d1, d2, hd1, hd2, hgr⟩
  · -- integer-shaped capture: value `v`, i.e. `(100 v)/100`
    rw [hgr] at h
    have hrs : removeSeps run = run.filter (fun c => !(sepChar c)) := rfl
    have hstrip : pyStrip (run.filter (fun c => !(sepChar c))) =
        run.filter (fun c => !(sepChar c)) :=
      pyStrip_id (fun c hc => (isDig_facts (hrun'dig c hc)).2.1)
    by_cases hr0 : run.filter (fun c => !(sepChar c)) = []
    · exfalso
      simp only [chf_to_float, data_mk, hrs, hr0] at h
      rw [show pyStrip ([] : List Char) = [] from rfl] at h
      simp [parsePyFloat, commaToDot] at h
    · simp only [chf_to_float, data_mk, hrs, hstrip,
        parse_all_dig hrun'dig hr0, Option.some.injEq] at h
      exact ⟨100 * digitsVal (run.filter (fun c => !(sepChar c))), by
        rw [← h]; push_cast; field_simp⟩
  · -- dotted capture: value `v + d/100`
    rw [hgr] at h
    have hd1' := isDig_facts hd1
    have hd2' := isDig_facts hd2
    have hrs : removeSeps (run ++ ['.', d1, d2]) =
        run.filter (fun c => !(sepChar c)) ++ ['.', d1, d2] := by
      unfold removeSeps
      rw [List.filter_append]
      congr 1
      simp [hd1'.1, hd2'.1]
      decide
    have hstrip : pyStrip (run.filter (fun c => !(sepChar c)) ++ ['.', d1, d2]) =
        run.filter (fun c => !(sepChar c)) ++ ['.', d1, d2] := by
      apply pyStrip_id
      intro c hc
      rcases List.mem_append.mp hc with h1 | h1
      · exact (isDig_facts (hrun'dig c h1)).2.1
      · rcases List.mem_cons.mp h1 with rfl | h2
        · decide
        · rcases List.mem_cons.mp h2 with rfl | h3
          · exact hd1'.2.1
          · rcases List.mem_cons.mp h3 with rfl | h4
            · exact hd2'.2.1
            · simp at h4
    have hB : ∀ c ∈ [d1, d2], isDig c = true := by
      intro c hc
      rcases List.mem_cons.mp hc with rfl | h2
      · exact hd1
      · rcases List.mem_cons.mp h2 with rfl | h3
        · exact hd2
        · simp at h3
    have hparse := parse_int_frac hrun'dig hB (Or.inr (by simp))
    simp only [chf_to_float, data_mk, hrs, hstrip, hparse, Option.some.injEq] at h
    refine ⟨100 * digitsVal (run.filter (fun c => !(sepChar c))) + digitsVal [d1, d2], ?_⟩
    rw [← h]
    push_cast
    have hlen : ([d1, d2] : List Char).length = 2 := rfl
    rw [hlen]
    field_simp
    ring

/-! ### Shape propagation through the three regex searches -/

theorem matchAbChfAt_shape {s g : List Char} (h : matchAbChfAt s = some g) :
    AmountShape g := by
  unfold matchAbChfAt at h
  cases h1 : matchCI ['a', 'b'] s with
  | none => simp only [h1] at h; exact absurd h (by simp)
  | some r1 =>
    simp only [h1] at h
    cases h2 : matchCI ['c', 'h', 'f'] (r1.dropWhile isPySpace) with
    | none => simp only [h2] at h; exact absurd h (by simp)
    | some r2 =>
      simp only [h2] at h
      rcases Option.map_eq_some'.mp h with ⟨gr, hgr, hfst⟩
      exact hfst ▸ matchAmount_shape hgr

theorem searchAbChf_shape : ∀ {s : List Char} {g : List Char},
    searchAbChf s = some g → AmountShape g := by
  intro s
  induction s with
  | nil => intro g h; exact absurd h (by simp [searchAbChf])
  | cons c rest ih =>
    intro g h
    unfold searchAbChf at h
    cases h1 : matchAbChfAt (c :: rest) with
    | some g1 =>
      simp only [h1, Option.some.injEq] at h
      exact h ▸ matchAbChfAt_shape h1
    | none => simp only [h1] at h; exact ih h

theorem matchChfAmountAt_shape {s : List Char} {gr : List Char × List Char}
    (h : matchChfAmountAt s = some gr) : AmountShape gr.1 := by
  rcases s with _ | ⟨c1, _ | ⟨c2, _ | ⟨c3, rest⟩⟩⟩
  · exact absurd h (by simp [matchChfAmountAt])
  · exact absurd h (by simp [matchChfAmountAt])
  · exact absurd h (by simp [matchChfAmountAt])
  · simp only [matchChfAmountAt] at h
    by_cases hc : lowerCH c1 = 'c' ∧ lowerCH c2 = 'h' ∧ lowerCH c3 = 'f'
    · rw [if_pos hc] at h
      exact matchAmount_shape h
    · rw [if_neg hc] at h
      exact absurd h (by simp)

theorem searchChfGroup_shape : ∀ {s g : List Char},
    searchChfGroup s = some g → AmountShape g := by
  intro s
  induction s with
  | nil => intro g h; exact absurd h (by simp [searchChfGroup])
  | cons c rest ih =>
    intro g h
    unfold searchChfGroup at h
    cases h1 : matchChfAmountAt (c :: rest) with
    | some gr =>
      simp only [h1, Option.some.injEq] at h
      exact h ▸ matchChfAmountAt_shape h1
    | none => simp only [h1] at h; exact ih h

theorem matchGuenstAt_shape {s g : List Char} (h : matchGuenstAt s = some g) :
    AmountShape g := by
  unfold matchGuenstAt at h
  cases h1 : matchCI "günstigster".data s with
  | none => simp only [h1] at h; exact absurd h (by simp)
  | some r1 =>
    simp only [h1] at h
    rcases r1 with _ | ⟨c, r⟩
    · exact absurd h (by simp)
    · have h' : (if isPySpace c = true then
          (match matchCI "produktpreis".data ((c :: r).dropWhile isPySpace) with
            | none => none
            | some r2 => searchChfGroup r2)
          else none) = some g := h
      by_cases hsp : isPySpace c = true
      · rw [if_pos hsp] at h'
        cases h2 : matchCI "produktpreis".data ((c :: r).dropWhile isPySpace) with
        | none => simp only [h2] at h'; exact absurd h' (by simp)
        | some r2 => simp only [h2] at h'; exact searchChfGroup_shape h'
      · rw [if_neg hsp] at h'
        exact absurd h' (by simp)

theorem searchGuenst_shape : ∀ {s g : List Char},
    searchGuenst s = some g → AmountShape g := by
  intro s
  induction s with
  | nil => intro g h; exact absurd h (by simp [searchGuenst])
  | cons c rest ih =>
    intro g h
    unfold searchGuenst at h
    cases h1 : matchGuenstAt (c :: rest) with
    | some g1 =>
      simp only [h1, Option.some.injEq] at h
      exact h ▸ matchGuenstAt_shape h1
    | none => simp only [h1] at h; exact ih h

theorem finditerChfAux_shape : ∀ (fuel : ℕ) (s : List Char) (g : List Char),
    g ∈ finditerChfAux fuel s → AmountShape g := by
  intro fuel
  induction fuel with
  | zero => intro s g h; exact absurd h (by simp [finditerChfAux])
  | succ fuel ih =>
    intro s g h
    rcases s with _ | ⟨c, rest⟩
    · exact absurd h (by simp [finditerChfAux])
    · unfold finditerChfAux at h
      cases h1 : matchChfAmountAt (c :: rest) with
      | some gr =>
        simp only [h1] at h
        rcases List.mem_cons.mp h with rfl | h2
        · exact matchChfAmountAt_shape h1
        · exact ih _ _ h2
      | none => simp only [h1] at h; exact ih _ _ h

theorem finditerChf_shape {s g : List Char} (h : g ∈ finditerChf s) : AmountShape g :=
  finditerChfAux_shape _ _ _ h

theorem chfCandidates_form {s : List Char} {q : ℚ} (h : q ∈ chfCandidates s) :
    ∃ k : ℕ, q = (k : ℚ) / 100 := by
  unfold chfCandidates at h
  rcases List.mem_filterMap.mp h with ⟨g, hg, hval⟩
  cases h1 : chf_to_float ⟨g⟩ with
  | none => rw [h1] at hval; exact absurd hval (by simp)
  | some p =>
    rw [h1] at hval
    have hval' : (if 100 ≤ p ∧ p ≤ 3000 then some p else none) = some q := hval
    by_cases hr : 100 ≤ p ∧ p ≤ 3000
    · rw [if_pos hr, Option.some.injEq] at hval'
      exact hval' ▸ chf_kform (finditerChf_shape hg) h1
    · rw [if_neg hr] at hval'
      exact absurd hval' (by simp)

theorem extract_form {t : String} {q : ℚ}
    (h : extract_min_price_from_text t = some q) : ∃ k : ℕ, q = (k : ℚ) / 100 := by
  have htier3 : ∀ q' : ℚ,
      (match chfCandidates t.data with
        | [] => none
        | c :: cs => some (cs.foldl min c)) = some q' → ∃ k : ℕ, q' = (k : ℚ) / 100 := by
    intro q' h3
    cases hc : chfCandidates t.data with
    | nil => rw [hc] at h3; exact absurd h3 (by simp)
    | cons c cs =>
      rw [hc] at h3
      have hq' := Option.some.inj h3
      have hmem : q' ∈ chfCandidates t.data := by
        rw [hc]
        rcases foldlMin_mem cs c with he | he
        · rw [← hq', he]; simp
        · rw [← hq']; exact List.mem_cons_of_mem c he
      exact chfCandidates_form hmem
  simp only [extract_min_price_from_text] at h
  cases h1 : searchAbChf t.data with
  | some g1 =>
    simp only [h1] at h
    cases h2 : chf_to_float ⟨g1⟩ with
    | some p =>
      simp only [h2, Option.some.injEq] at h
      exact h ▸ chf_kform (searchAbChf_shape h1) h2
    | none =>
      simp only [h2] at h
      cases h3 : searchGuenst t.data with
      | some g2 =>
        simp only [h3] at h
        cases h4 : chf_to_float ⟨g2⟩ with
        | some p =>
          simp only [h4, Option.some.injEq] at h
          exact h ▸ chf_kform (searchGuenst_shape h3) h4
        | none => simp only [h4] at h; exact htier3 q h
      | none => simp only [h3] at h; exact htier3 q h
  | none =>
    simp only [h1] at h
    cases h3 : searchGuenst t.data with
    | some g2 =>
      simp only [h3] at h
      cases h4 : chf_to_float ⟨g2⟩ with
      | some p =>
        simp only [h4, Option.some.injEq] at h
        exact h ▸ chf_kform (searchGuenst_shape h3) h4
      | none => simp only [h4] at h; exact htier3 q h
    | none => simp only [h3] at h; exact htier3 q h

/-! ### The `finditer` fuel is irrelevant -/

theorem matchCI_length : ∀ (p s r : List Char), matchCI p s = some r →
    r.length + p.length = s.length := by
  intro p
  induction p with
  | nil =>
    intro s r h
    simp only [matchCI, Option.some.injEq] at h
    rw [h]
    simp
  | cons x ps ih =>
    intro s r h
    rcases s with _ | ⟨c, cs⟩
    · exact absurd h (by simp [matchCI])
    · unfold matchCI at h
      by_cases hc : lowerCH c = x
      · rw [if_pos hc] at h
        have := ih cs r h
        simp only [List.length_cons]
        omega
      · rw [if_neg hc] at h
        exact absurd h (by simp)

theorem dropWhile_length_le (p : Char → Bool) (l : List Char) :
    (l.dropWhile p).length ≤ l.length := by
  conv_rhs => rw [← List.takeWhile_append_dropWhile (p := p) (l := l)]
  rw [List.length_append]
  omega

theorem matchAmount_length {s : List Char} {gr : List Char × List Char}
    (h : matchAmount s = some gr) : gr.2.length < s.length := by
  have hsplit : (s.takeWhile isAmountChar).length + (s.dropWhile isAmountChar).length
      = s.length := by
    conv_rhs => rw [← List.takeWhile_append_dropWhile (p := isAmountChar) (l := s)]
    rw [List.length_append]
  by_cases hrun : s.takeWhile isAmountChar = []
  · unfold matchAmount at h
    simp [hrun] at h
  · have hrunpos : 0 < (s.takeWhile isAmountChar).length :=
      List.length_pos.mpr hrun
    unfold matchAmount at h
    simp only [hrun, if_false] at h
    rcases hd : s.dropWhile isAmountChar with _ | ⟨x, _ | ⟨y, _ | ⟨z, r⟩⟩⟩ <;>
        simp only [hd] at h <;> rw [hd] at hsplit
    · rw [Option.some.injEq] at h
      rw [← h]
      simp only [List.length_nil] at hsplit ⊢
      omega
    · rw [Option.some.injEq] at h
      rw [← h]
      simp only [List.length_cons, List.length_nil] at hsplit ⊢
      omega
    · rw [Option.some.injEq] at h
      rw [← h]
      simp only [List.length_cons, List.length_nil] at hsplit ⊢
      omega
    · simp only [List.length_cons] at hsplit
      by_cases hx : x = '.' ∧ isDig y = true ∧ isDig z = true
      · rw [if_pos hx, Option.some.injEq] at h
        rw [← h]
        show r.length < s.length
        omega
      · rw [if_neg hx, Option.some.injEq] at h
        rw [← h]
        show (x :: y :: z :: r).length < s.length
        simp only [List.length_cons]
        omega

theorem matchChfAmountAt_length {s : List Char} {gr : List Char × List Char}
    (h : matchChfAmountAt s = some gr) : gr.2.length < s.length := by
  rcases s with _ | ⟨c1, _ | ⟨c2, _ | ⟨c3, rest⟩⟩⟩
  · exact absurd h (by simp [matchChfAmountAt])
  · exact absurd h (by simp [matchChfAmountAt])
  · exact absurd h (by simp [matchChfAmountAt])
  · simp only [matchChfAmountAt] at h
    by_cases hc : lowerCH c1 = 'c' ∧ lowerCH c2 = 'h' ∧ lowerCH c3 = 'f'
    · rw [if_pos hc] at h
      have h1 := matchAmount_length h
      have h2 := dropWhile_length_le isPySpace rest
      simp only [List.length_cons]
      omega
    · rw [if_neg hc] at h
      exact absurd h (by simp)

theorem finditerChfAux_mono : ∀ (f1 : ℕ) (s : List Char) (f2 : ℕ),
    s.length ≤ f1 → s.length ≤ f2 → finditerChfAux f1 s = finditerChfAux f2 s := by
  intro f1
  induction f1 with
  | zero =>
    intro s f2 h1 _
    have hs : s = [] := List.length_eq_zero.mp (Nat.le_zero.mp h1)
    subst hs
    cases f2 <;> simp [finditerChfAux]
  | succ f1 ih =>
    intro s f2 h1 h2
    rcases s with _ | ⟨c, rest⟩
    · cases f2 <;> simp [finditerChfAux]
    · rcases f2 with _ | f2
      · simp at h2
      · simp only [finditerChfAux]
        cases hm : matchChfAmountAt (c :: rest) with
        | some gr =>
          have hlt := matchChfAmountAt_length hm
          simp only [List.length_cons] at h1 h2 hlt
          show gr.1 :: finditerChfAux f1 gr.2 = gr.1 :: finditerChfAux f2 gr.2
          rw [ih gr.2 f2 (by omega) (by omega)]
        | none =>
          simp only [List.length_cons] at h1 h2
          show finditerChfAux f1 rest = finditerChfAux f2 rest
          exact ih rest f2 (by omega) (by omega)

theorem finditerChf_cons (c : Char) (rest : List Char) :
    finditerChf (c :: rest) =
      match matchChfAmountAt (c :: rest) with
      | some gr => gr.1 :: finditerChf gr.2
      | none => finditerChf rest := by
  unfold finditerChf
  simp only [List.length_cons, finditerChfAux]
  cases hm : matchChfAmountAt (c :: rest) with
  | some gr =>
    have hlt := matchChfAmountAt_length hm
    simp only [List.length_cons] at hlt
    show gr.1 :: finditerChfAux rest.length gr.2 = gr.1 :: finditerChfAux gr.2.length gr.2
    rw [finditerChfAux_mono rest.length gr.2 gr.2.length (by omega) (le_refl _)]
  | none => rfl

/-! ### Aggregation: the running minimum is the first-seen minimum -/

theorem observations_cons (fetch : String → Option ℚ) (u : String) (t : List String) :
    observations fetch (u :: t) =
      match fetch u with
      | some p => (p, u) :: observations fetch t
      | none => observations fetch t := by
  unfold observations
  rw [List.filterMap_cons]
  cases fetch u <;> simp

theorem minStep_some (obs : List (ℚ × String)) : ∀ a : ℚ × String,
    obs.foldl minStep (some a) = some (obs.foldl minStep2 a) := by
  induction obs with
  | nil => intro a; rfl
  | cons x t ih =>
    intro a
    simp only [List.foldl_cons]
    have hstep : minStep (some a) x = some (minStep2 a x) := by
      unfold minStep minStep2
      by_cases h : x.1 < a.1 <;> simp [h]
    rw [hstep]
    exact ih _

theorem foldlMin2_le (obs : List (ℚ × String)) : ∀ a : ℚ × String,
    (obs.foldl minStep2 a).1 ≤ a.1 ∧ ∀ x ∈ obs, (obs.foldl minStep2 a).1 ≤ x.1 := by
  induction obs with
  | nil => intro a; exact ⟨le_refl _, by simp⟩
  | cons x t ih =>
    intro a
    simp only [List.foldl_cons]
    have h := ih (minStep2 a x)
    have hax : (minStep2 a x).1 ≤ a.1 ∧ (minStep2 a x).1 ≤ x.1 := by
      unfold minStep2
      by_cases hx : x.1 < a.1
      · rw [if_pos hx]; exact ⟨le_of_lt hx, le_refl _⟩
      · rw [if_neg hx]; exact ⟨le_refl _, le_of_not_lt hx⟩
    refine ⟨le_trans h.1 hax.1, ?_⟩
    intro y hy
    rcases List.mem_cons.mp hy with rfl | hyt
    · exact le_trans h.1 hax.2
    · exact h.2 y hyt

theorem foldlMin2_mem (obs : List (ℚ × String)) : ∀ a : ℚ × String,
    obs.foldl minStep2 a = a ∨ obs.foldl minStep2 a ∈ obs := by
  induction obs with
  | nil => intro a; exact Or.inl rfl
  | cons x t ih =>
    intro a
    simp only [List.foldl_cons]
    by_cases hx : x.1 < a.1
    · have hb : minStep2 a x = x := by unfold minStep2; rw [if_pos hx]
      rw [hb]
      rcases ih x with h | h
      · exact Or.inr (by rw [h]; simp)
      · exact Or.inr (List.mem_cons_of_mem x h)
    · have hb : minStep2 a x = a := by unfold minStep2; rw [if_neg hx]
      rw [hb]
      rcases ih a with h | h
      · exact Or.inl h
      · exact Or.inr (List.mem_cons_of_mem x h)

theorem foldlMin2_find (obs : List (ℚ × String)) : ∀ a : ℚ × String,
    (a :: obs).find? (fun x => decide (x.1 = (obs.foldl minStep2 a).1)) =
      some (obs.foldl minStep2 a) := by
  induction obs with
  | nil =>
    intro a
    simp [List.find?]
  | cons x t ih =>
    intro a
    simp only [List.foldl_cons]
    by_cases hx : x.1 < a.1
    · have hb : minStep2 a x = x := by unfold minStep2; rw [if_pos hx]
      simp only [hb]
      have hr := ih x
      have hrle := (foldlMin2_le t x).1
      have hane : ¬(a.1 = (t.foldl minStep2 x).1) := by
        intro hEq
        rw [hEq] at hx
        exact absurd (lt_of_le_of_lt hrle hx) (lt_irrefl _)
      rw [List.find?_cons_of_neg _ (by simpa using hane)]
      exact hr
    · have hb : minStep2 a x = a := by unfold minStep2; rw [if_neg hx]
      simp only [hb]
      have hr := ih a
      have hrle := (foldlMin2_le t a).1
      by_cases ha : a.1 = (t.foldl minStep2 a).1
      · have hpos : (a :: t).find? (fun y => decide (y.1 = (t.foldl minStep2 a).1)) = some a :=
          List.find?_cons_of_pos _ (by simpa using ha)
        have hfold : t.foldl minStep2 a = a := (Option.some.inj (hpos.symm.trans hr)).symm
        simp only [hfold]
        exact List.find?_cons_of_pos _ (by simp)
      · have hlt : (t.foldl minStep2 a).1 < a.1 := lt_of_le_of_ne hrle (fun hEq => ha hEq.symm)
        have hxne : ¬(x.1 = (t.foldl minStep2 a).1) := by
          intro hEq
          have hax : a.1 ≤ x.1 := le_of_not_lt hx
          rw [hEq] at hax
          exact absurd (lt_of_le_of_lt hax hlt) (lt_irrefl _)
        rw [List.find?_cons_of_neg _ (by simpa using ha),
          List.find?_cons_of_neg _ (by simpa using hxne)]
        rw [List.find?_cons_of_neg _ (by simpa using ha)] at hr
        exact hr

theorem aggregate_fold (fetch : String → Option ℚ) : ∀ (urls : List String)
    (acc : Option (ℚ × String)),
    urls.foldl (fun acc u =>
      match fetch u with
      | some p => minStep acc (p, u)
      | none => acc) acc = (observations fetch urls).foldl minStep acc := by
  intro urls
  induction urls with
  | nil => intro acc; rfl
  | cons u t ih =>
    intro acc
    rw [observations_cons, List.foldl_cons]
    cases hf : fetch u with
    | some p => simp only [hf, List.foldl_cons]; exact ih _
    | none => simp only [hf]; exact ih _

theorem observations_mem {fetch : String → Option ℚ} {urls : List String}
    {x : ℚ × String} (h : x ∈ observations fetch urls) :
    x.2 ∈ urls ∧ fetch x.2 = some x.1 := by
  unfold observations at h
  rcases List.mem_filterMap.mp h with ⟨u, hu, hmap⟩
  cases hf : fetch u with
  | none => rw [hf] at hmap; exact absurd hmap (by simp)
  | some p =>
    rw [hf, Option.map_some'] at hmap
    have := Option.some.inj hmap
    rw [← this]
    exact ⟨hu, hf⟩

theorem aggregate_spec (fetch : String → Option ℚ) (urls : List String)
    (hne : observations fetch urls ≠ []) :
    ∃ m : ℚ × String,
      urls.foldl (fun acc u =>
        match fetch u with
        | some p => minStep acc (p, u)
        | none => acc) none = some m ∧
      (∀ x ∈ observations fetch urls, m.1 ≤ x.1) ∧
      (observations fetch urls).find? (fun x => decide (x.1 = m.1)) = some m := by
  rw [aggregate_fold]
  cases hobs : observations fetch urls with
  | nil => exact absurd hobs hne
  | cons o t =>
    have hstep : minStep none o = some o := rfl
    rw [List.foldl_cons, hstep, minStep_some]
    refine ⟨t.foldl minStep2 o, rfl, ?_, ?_⟩
    · intro x hx
      rcases List.mem_cons.mp hx with hxo | hxt
      · rw [hxo]
        exact (foldlMin2_le t o).1
      · exact (foldlMin2_le t o).2 x hxt
    · exact foldlMin2_find t o

/-! ### Alert evaluation -/

theorem pyFloat_empty : pyFloat "" = none := rfl

theorem alertFor_some {tbl : List (String × ℚ)} {e : String × Snapshot} {a : AlertEvent}
    (h : alertFor tbl e = some a) :
    a.model = e.1 ∧ lookupThr tbl e.1 = some a.threshold ∧
      pyFloat e.2.price_chf = some a.price ∧ a.price ≤ a.threshold ∧ a.url = e.2.url := by
  unfold alertFor at h
  by_cases h0 : e.2.price_chf = ""
  · rw [if_pos h0] at h; exact absurd h (by simp)
  · rw [if_neg h0] at h
    cases hp : pyFloat e.2.price_chf with
    | none => simp only [hp] at h; exact absurd h (by simp)
    | some price =>
      simp only [hp] at h
      cases ht : lookupThr tbl e.1 with
      | none => simp only [ht] at h; exact absurd h (by simp)
      | some thr =>
        simp only [ht] at h
        by_cases hle : price ≤ thr
        · rw [if_pos hle] at h
          have h' := Option.some.inj h
          subst h'
          simp [ht, hp, hle]
        · rw [if_neg hle] at h
          exact absurd h (by simp)

theorem alertFor_eval {tbl : List (String × ℚ)} {model : String} {snap : Snapshot}
    {price thr : ℚ} (hprice : pyFloat snap.price_chf = some price)
    (hthr : lookupThr tbl model = some thr) :
    alertFor tbl (model, snap) =
      if price ≤ thr then some ⟨model, price, thr, snap.url⟩ else none := by
  have hne : snap.price_chf ≠ "" := by
    intro h0
    rw [h0, pyFloat_empty] at hprice
    exact absurd hprice (by simp)
  unfold alertFor
  simp only [hne, if_false, hprice, hthr]

theorem countP_alerts_zero {tbl : List (String × ℚ)} {model : String} :
    ∀ data : List (String × Snapshot), model ∉ data.map Prod.fst →
      ((data.filterMap (alertFor tbl)).countP (fun a => a.model == model)) = 0 := by
  intro data
  induction data with
  | nil => intro _; rfl
  | cons e t ih =>
    intro h
    simp only [List.map_cons, List.mem_cons] at h
    push_neg at h
    rw [List.filterMap_cons]
    cases ha : alertFor tbl e with
    | none => exact ih h.2
    | some a =>
      rw [List.countP_cons]
      have hmod : (a.model == model) = false := by
        have := (alertFor_some ha).1
        rw [beq_eq_false_iff_ne, this]
        exact fun hEq => h.1 hEq.symm
      simp [hmod, ih h.2]

theorem countP_alerts {tbl : List (String × ℚ)} {model : String} {snap : Snapshot}
    {price thr : ℚ} (hprice : pyFloat snap.price_chf = some price)
    (hthr : lookupThr tbl model = some thr) :
    ∀ data : List (String × Snapshot), (data.map Prod.fst).Nodup → (model, snap) ∈ data →
      ((data.filterMap (alertFor tbl)).countP (fun a => a.model == model)) =
        if price ≤ thr then 1 else 0 := by
  intro data
  induction data with
  | nil => intro _ hmem; simp at hmem
  | cons e t ih =>
    intro hnd hmem
    simp only [List.map_cons, List.nodup_cons] at hnd
    rw [List.filterMap_cons]
    rcases List.mem_cons.mp hmem with he | hmem'
    · rw [← he] at hnd ⊢
      rw [alertFor_eval hprice hthr]
      have hz : ((t.filterMap (alertFor tbl)).countP (fun a => a.model == model)) = 0 :=
        countP_alerts_zero t hnd.1
      by_cases hle : price ≤ thr
      · rw [if_pos hle, if_pos hle, List.countP_cons]
        simp [hz]
      · rw [if_neg hle, if_neg hle]
        exact hz
    · have he1 : e.1 ≠ model := by
        intro hEq
        exact hnd.1 (hEq ▸ List.mem_map.mpr ⟨(model, snap), hmem', rfl⟩)
      cases ha : alertFor tbl e with
      | none => exact ih hnd.2 hmem'
      | some a =>
        rw [List.countP_cons]
        have hmod : (a.model == model) = false := by
          rw [beq_eq_false_iff_ne, (alertFor_some ha).1]
          exact he1
        simp only [hmod, if_false, Nat.add_zero]
        exact ih hnd.2 hmem'

theorem removeSeps_idem (l : List Char) : removeSeps (removeSeps l) = removeSeps l := by
  unfold removeSeps
  rw [List.filter_filter]
  simp

/-! ### The claims -/

unseal Rat.add Rat.mul Rat.inv Rat.sub in
/-- Claim C1 counterexample: with the non-empty override table
`[("Sage Barista Pro", 580)]`, the product `"Sage Barista Touch Impress"`
— present in `DEFAULT_THRESHOLDS` with threshold 960, and holding a
snapshot price of 950.00 ≤ 960 — produces no alert: the evaluator does not
fall back per-product to the built-in defaults, contrary to the claim. -/
theorem claim_C1_counterexample :
    send_push_if_needed (some "t") [("Sage Barista Pro", 580)]
      [("Sage Barista Touch Impress", ⟨"950.00", "u"⟩)] = [] ∧
    lookupThr DEFAULT_THRESHOLDS "Sage Barista Touch Impress" = some 960 ∧
    lookupThr [("Sage Barista Pro", 580)] "Sage Barista Touch Impress" = none ∧
    pyFloat "950.00" = some 950 ∧ ((950 : ℚ) ≤ 960) := by
  decide

/-- Claim C1 (amended): `thresholds = overrides or DEFAULT_THRESHOLDS` is a
whole-table fallback, not per-product: when a non-empty override table is
supplied, the built-in defaults are never consulted, and a product name
absent from the override table is skipped — no emitted alert carries it. -/
theorem claim_C1_main (tp : String) (ov : List (String × ℚ))
    (data : List (String × Snapshot)) (model : String)
    (hov : ov ≠ []) (habs : lookupThr ov model = none) :
    ∀ e ∈ send_push_if_needed (some tp) ov data, e.model ≠ model := by
  intro e he hEq
  simp only [send_push_if_needed] at he
  by_cases htp : tp = ""
  · rw [if_pos htp] at he
    simp at he
  · rw [if_neg htp, if_neg hov] at he
    rcases List.mem_filterMap.mp he with ⟨entry, _, ha⟩
    have hprops := alertFor_some ha
    have h2 := hprops.2.1
    rw [← hprops.1, hEq, habs] at h2
    exact absurd h2 (by simp)

/-- Witness for C1: the amended theorem applied at the counterexample's
concrete input. -/
theorem claim_C1_witness :
    (([("Sage Barista Pro", (580 : ℚ))] : List (String × ℚ)) ≠ []) ∧
    lookupThr [("Sage Barista Pro", 580)] "Sage Barista Touch Impress" = none ∧
    ∀ e ∈ send_push_if_needed (some "t") [("Sage Barista Pro", 580)]
        [("Sage Barista Touch Impress", ⟨"950.00", "u"⟩)],
      e.model ≠ "Sage Barista Touch Impress" :=
  ⟨by decide, by decide,
    claim_C1_main "t" [("Sage Barista Pro", 580)]
      [("Sage Barista Touch Impress", ⟨"950.00", "u"⟩)] "Sage Barista Touch Impress"
      (by decide) (by decide)⟩

unseal Rat.add Rat.mul Rat.inv Rat.sub in
/-- Claim C2 counterexample: a text containing `"ab CHF 1'099.00"` for
which `extract_min_price_from_text` does not return 1099.00, because an
earlier `ab CHF` match (another CHF amount in the text) wins. -/
theorem claim_C2_counterexample :
    hasSubstring ("ab CHF 1'099.00".data) ("ab CHF 200.00 ab CHF 1'099.00".data) = true ∧
    extract_min_price_from_text "ab CHF 200.00 ab CHF 1'099.00" = some 200 ∧
    ((200 : ℚ) ≠ (1099 : ℚ)) := by
  decide

unseal Rat.add Rat.mul Rat.inv Rat.sub in
/-- Claim C2 (amended): for every text whose leftmost `ab CHF` match
captures exactly `1'099.00` — in particular any text containing
`"ab CHF 1'099.00"` with no earlier `ab CHF` match — the extractor returns
1099.00, regardless of any other CHF amounts in the text. -/
theorem claim_C2_main (t : String)
    (h : searchAbChf t.data = some ("1'099.00".data)) :
    extract_min_price_from_text t = some 1099 := by
  have hval : chf_to_float ⟨("1'099.00".data)⟩ = some 1099 := by decide
  simp only [extract_min_price_from_text, h, hval]

unseal Rat.add Rat.mul Rat.inv Rat.sub in
/-- Witness for C2: a text with the `ab CHF 1'099.00` offer first and a
distracting CHF mention after it. -/
theorem claim_C2_witness :
    searchAbChf ("Nur heute ab CHF 1'099.00 statt CHF 1'299.00".data) =
      some ("1'099.00".data) ∧
    extract_min_price_from_text "Nur heute ab CHF 1'099.00 statt CHF 1'299.00" =
      some 1099 :=
  ⟨by decide, claim_C2_main _ (by decide)⟩

/-- Claim C3: when at least one URL yields an observation, the snapshot
price is the 2-decimal rendering of the minimum observed price, and the
snapshot URL is the URL of the first observation attaining that minimum
(strict-improvement updates give first-seen tie-breaking).  URLs are
assumed non-empty strings, as actual URLs are. -/
theorem claim_C3_main (fetch : String → Option ℚ) (urls : List String)
    (hne : observations fetch urls ≠ []) (hurl : ∀ u ∈ urls, u ≠ "") :
    ∃ m : ℚ × String,
      aggregate fetch urls = { price_chf := format2 m.1, url := m.2 } ∧
      (∀ x ∈ observations fetch urls, m.1 ≤ x.1) ∧
      (observations fetch urls).find? (fun x => decide (x.1 = m.1)) = some m := by
  obtain ⟨m, hfold, hle, hfind⟩ := aggregate_spec fetch urls hne
  have hmem : m ∈ observations fetch urls := List.mem_of_find?_eq_some hfind
  have hmu : m.2 ≠ "" := hurl m.2 (observations_mem hmem).1
  refine ⟨m, ?_, hle, hfind⟩
  unfold aggregate
  rw [hfold]
  show ({ price_chf := format2 m.1, url := if m.2 = "" then urls.headD "" else m.2 }
    : Snapshot) = _
  rw [if_neg hmu]

unseal Rat.add Rat.mul Rat.inv Rat.sub in
/-- Witness for C3: URLs `[A, B]` yielding 999.00 and 950.00 give snapshot
price `"950.00"` with URL `B`. -/
theorem claim_C3_witness :
    (observations (fun u => if u = "A" then some 999 else if u = "B" then some 950 else none)
      ["A", "B"] ≠ []) ∧
    (∀ u ∈ ["A", "B"], u ≠ "") ∧
    (∃ m : ℚ × String,
      aggregate (fun u => if u = "A" then some 999 else if u = "B" then some 950 else none)
        ["A", "B"] = { price_chf := format2 m.1, url := m.2 } ∧
      (∀ x ∈ observations
          (fun u => if u = "A" then some 999 else if u = "B" then some 950 else none)
          ["A", "B"], m.1 ≤ x.1) ∧
      (observations (fun u => if u = "A" then some 999 else if u = "B" then some 950 else none)
          ["A", "B"]).find? (fun x => decide (x.1 = m.1)) = some m) ∧
    aggregate (fun u => if u = "A" then some 999 else if u = "B" then some 950 else none)
      ["A", "B"] = { price_chf := "950.00", url := "B" } :=
  ⟨by decide, by decide,
    claim_C3_main _ _ (by decide) (by decide), by decide⟩

/-- Claim C4: when neither the `ab CHF` pattern nor the `günstigster
Produktpreis` pattern matches, the extractor returns the minimum of the
parsed bare `CHF` amounts lying in `[100, 3000]` (the `chfCandidates`),
and absent when that set is empty (hence absent for texts with zero CHF
mentions). -/
theorem claim_C4_main (t : String)
    (hab : searchAbChf t.data = none) (hg : searchGuenst t.data = none) :
    (chfCandidates t.data = [] → extract_min_price_from_text t = none) ∧
    (chfCandidates t.data ≠ [] → ∃ m : ℚ,
      extract_min_price_from_text t = some m ∧ m ∈ chfCandidates t.data ∧
      ∀ x ∈ chfCandidates t.data, m ≤ x) := by
  have hred : extract_min_price_from_text t =
      match chfCandidates t.data with
      | [] => none
      | c :: cs => some (cs.foldl min c) := by
    simp only [extract_min_price_from_text, hab, hg]
  constructor
  · intro hc
    rw [hred, hc]
  · intro hc
    cases hcc : chfCandidates t.data with
    | nil => exact absurd hcc hc
    | cons c cs =>
      refine ⟨cs.foldl min c, ?_, ?_, ?_⟩
      · rw [hred, hcc]
      · rcases foldlMin_mem cs c with h | h
        · rw [h]; simp
        · exact List.mem_cons_of_mem c h
      · intro x hx
        rcases List.mem_cons.mp hx with hxc | hxcs
        · rw [hxc]; exact (foldlMin_le cs c).1
        · exact (foldlMin_le cs c).2 x hxcs

unseal Rat.add Rat.mul Rat.inv Rat.sub in
/-- Witness for C4: three bare CHF mentions, one below the plausible
range; the minimum in-range amount 120.00 is returned. -/
theorem claim_C4_witness :
    (searchAbChf ("CHF 150.00, CHF 120.00 und CHF 50.00".data) = none) ∧
    (searchGuenst ("CHF 150.00, CHF 120.00 und CHF 50.00".data) = none) ∧
    ((chfCandidates ("CHF 150.00, CHF 120.00 und CHF 50.00".data) = [] →
        extract_min_price_from_text "CHF 150.00, CHF 120.00 und CHF 50.00" = none) ∧
      (chfCandidates ("CHF 150.00, CHF 120.00 und CHF 50.00".data) ≠ [] → ∃ m : ℚ,
        extract_min_price_from_text "CHF 150.00, CHF 120.00 und CHF 50.00" = some m ∧
        m ∈ chfCandidates ("CHF 150.00, CHF 120.00 und CHF 50.00".data) ∧
        ∀ x ∈ chfCandidates ("CHF 150.00, CHF 120.00 und CHF 50.00".data), m ≤ x)) ∧
    extract_min_price_from_text "CHF 150.00, CHF 120.00 und CHF 50.00" = some 120 ∧
    extract_min_price_from_text "hello world" = none :=
  ⟨by decide, by decide, claim_C4_main _ (by decide) (by decide), by decide, by decide⟩

unseal Rat.add Rat.mul Rat.inv Rat.sub in
/-- Claim C5: `chf_to_float` is insensitive to the thousands separators it
strips (`'`, `’`, `_`), and the two cited evaluations hold, the second via
the comma-for-dot retry: `"1'099.00" ↦ 1099` and `"1099,50" ↦ 1099.5`. -/
theorem claim_C5_main :
    (∀ s : String, chf_to_float ⟨removeSeps s.data⟩ = chf_to_float s) ∧
    chf_to_float "1'099.00" = some 1099 ∧
    chf_to_float "1099,50" = some ((2199 : ℚ) / 2) := by
  refine ⟨?_, by decide, by decide⟩
  intro s
  simp only [chf_to_float, data_mk, removeSeps_idem]

/-- Claim C6: for a product present once in the snapshot set, with a
parseable price and a threshold found in the table the code selects,
exactly one alert is emitted iff `price ≤ threshold` (inclusive), and none
otherwise. -/
theorem claim_C6_main (tp : String) (ov : List (String × ℚ))
    (data : List (String × Snapshot)) (model : String) (snap : Snapshot)
    (price thr : ℚ)
    (htp : tp ≠ "")
    (hnd : (data.map Prod.fst).Nodup)
    (hmem : (model, snap) ∈ data)
    (hprice : pyFloat snap.price_chf = some price)
    (hthr : lookupThr (if ov = [] then DEFAULT_THRESHOLDS else ov) model = some thr) :
    ((send_push_if_needed (some tp) ov data).countP (fun a => a.model == model)) =
      if price ≤ thr then 1 else 0 := by
  simp only [send_push_if_needed]
  rw [if_neg htp]
  exact countP_alerts hprice hthr data hnd hmem

unseal Rat.add Rat.mul Rat.inv Rat.sub in
/-- Witness for C6: price 950.00 against the default threshold 960 emits
exactly one alert; price 965.00 against it emits none. -/
theorem claim_C6_witness :
    (("t" : String) ≠ "") ∧
    (([("Sage Barista Touch Impress", Snapshot.mk "950.00" "u")].map Prod.fst).Nodup) ∧
    (("Sage Barista Touch Impress", Snapshot.mk "950.00" "u") ∈
      [("Sage Barista Touch Impress", Snapshot.mk "950.00" "u")]) ∧
    pyFloat "950.00" = some 950 ∧
    lookupThr (if ([] : List (String × ℚ)) = [] then DEFAULT_THRESHOLDS else [])
      "Sage Barista Touch Impress" = some 960 ∧
    ((send_push_if_needed (some "t") []
        [("Sage Barista Touch Impress", Snapshot.mk "950.00" "u")]).countP
      (fun a => a.model == "Sage Barista Touch Impress")) = 1 ∧
    ((send_push_if_needed (some "t") []
        [("Sage Barista Touch Impress", Snapshot.mk "965.00" "u")]).countP
      (fun a => a.model == "Sage Barista Touch Impress")) = 0 :=
  ⟨by decide, by decide, by decide, by decide, by decide, by
    have h := claim_C6_main "t" [] [("Sage Barista Touch Impress", Snapshot.mk "950.00" "u")]
      "Sage Barista Touch Impress" (Snapshot.mk "950.00" "u") 950 960
      (by decide) (by decide) (by decide) (by decide) (by decide)
    rw [if_pos (by norm_num : (950 : ℚ) ≤ 960)] at h
    exact h, by decide⟩

/-- Claim C7: a product whose every URL fetch fails (or yields no
observation) gets an absent price (empty string) and the first configured
URL. -/
theorem claim_C7_main (fetch : String → Option ℚ) (urls : List String)
    (u0 : String) (t : List String)
    (hurls : urls = u0 :: t) (hfail : ∀ u ∈ urls, fetch u = none) :
    aggregate fetch urls = { price_chf := "", url := u0 } := by
  have hobs : observations fetch urls = [] := by
    unfold observations
    rw [List.filterMap_eq_nil_iff]
    intro u hu
    rw [hfail u hu]
    rfl
  unfold aggregate
  rw [aggregate_fold, hobs]
  subst hurls
  rfl

/-- Witness for C7: two URLs, both failing. -/
theorem claim_C7_witness :
    ((["A", "B"] : List String) = "A" :: ["B"]) ∧
    (∀ u ∈ (["A", "B"] : List String), (fun _ => (none : Option ℚ)) u = none) ∧
    aggregate (fun _ => none) ["A", "B"] = { price_chf := "", url := "A" } :=
  ⟨rfl, by decide, claim_C7_main _ _ "A" ["B"] rfl (by decide)⟩

/-- Claim C8: `poll_all_products` always returns exactly one entry per
configured product, keyed by the product name, whatever the fetch oracle
does — a product with no observations is still present. -/
theorem claim_C8_main (fetch : String → Option ℚ)
    (products : List (String × List String)) :
    (poll_all_products fetch products).length = products.length ∧
    (poll_all_products fetch products).map Prod.fst = products.map Prod.fst := by
  unfold poll_all_products
  constructor
  · rw [List.length_map]
  · rw [List.map_map]
    rfl

/-- Claim C9: formatting a price to a fixed two-decimal string and
re-parsing it with `chf_to_float` returns exactly the original value (the
round-trip is exact, hence within any tolerance).  Every price this
program produces has the form `k/100` — `extract_min_price_from_text`
only ever returns such values (see `extract_form`). -/
theorem claim_C9_main (k : ℕ) :
    chf_to_float (format2 ((k : ℚ) / 100)) = some ((k : ℚ) / 100) :=
  chf_roundtrip k

/-- Claim C10 counterexample: the claimed possibility — a raw extracted
minimum strictly above the threshold whose 2-decimal rendering re-parses
at or below the threshold, triggering an alert — cannot occur: every
extracted price already has exactly the form `k/100`, so the
format/re-parse round-trip is the identity and cannot cross the
threshold. -/
theorem claim_C10_counterexample :
    ¬ ∃ (t : String) (q thr p : ℚ),
      extract_min_price_from_text t = some q ∧ thr < q ∧
      pyFloat (format2 q) = some p ∧ p ≤ thr := by
  rintro ⟨t, q, thr, p, hq, hlt, hp, hle⟩
  obtain ⟨k, rfl⟩ := extract_form hq
  rw [pyFloat_roundtrip k] at hp
  rw [← Option.some.inj hp] at hle
  exact absurd (lt_of_le_of_lt hle hlt) (lt_irrefl _)

/-- Claim C10 (amended): the evaluator does compare the threshold against
the re-parsed 2-decimal-formatted price string, but for every raw minimum
the extractor can produce the re-parse returns exactly the raw value, so
an alert fires iff the raw minimum is ≤ the threshold; a raw minimum
strictly above the threshold never triggers an alert. -/
theorem claim_C10_main (t : String) (q : ℚ)
    (h : extract_min_price_from_text t = some q) :
    pyFloat (format2 q) = some q ∧
    ∀ thr : ℚ, (q ≤ thr ↔ ∃ p, pyFloat (format2 q) = some p ∧ p ≤ thr) := by
  obtain ⟨k, rfl⟩ := extract_form h
  refine ⟨pyFloat_roundtrip k, ?_⟩
  intro thr
  constructor
  · intro hle
    exact ⟨_, pyFloat_roundtrip k, hle⟩
  · rintro ⟨p, hp, hle⟩
    rw [pyFloat_roundtrip k] at hp
    rw [← Option.some.inj hp] at hle
    exact hle

unseal Rat.add Rat.mul Rat.inv Rat.sub in
/-- Witness for C10: a concrete extracted price of 123.45. -/
theorem claim_C10_witness :
    extract_min_price_from_text "CHF 123.45" = some ((12345 : ℚ) / 100) ∧
    pyFloat (format2 ((12345 : ℚ) / 100)) = some ((12345 : ℚ) / 100) :=
  ⟨by decide, (claim_C10_main "CHF 123.45" _ (by decide)).1⟩

end Toppreise
